import Mathlib

set_option maxRecDepth 4000

/-!
Shallow embedding of the knowledge-engine core of minesweeper.py.

Python sets of cells are represented as duplicate-free lists; iteration over a
set becomes iteration over the list in its stored order (Python set iteration
order is unspecified, and every final-state property proved here is
order-independent).

Aliasing: the Python fixpoint loops iterate over a shallow copy of the
knowledge list while the marking operations mutate the shared Sentence
objects in place.  Only empty sentences are ever removed from the live list
and marking an empty sentence is a no-op, so the value of every snapshot
entry at visit time equals its value at snapshot time with every mark issued
since then applied.  The embedding therefore threads each snapshot through
the marking operations: a mark maps the per-sentence update over the live
knowledge list and over the snapshot remainder.

The two while-change loops take a fuel parameter and return none when the
fuel is exhausted before the fixpoint is reached; every inner iteration is
structural.
-/

/-- Cells are integer grid coordinates, as the Python pair tuples. -/
abbrev Cell := Int × Int

/-- A logical sentence of class Sentence: a set of board cells and a count. -/
structure Sentence where
  cells : List Cell
  count : Int
deriving DecidableEq

/-- Python set.add on the list representation of a set: append if absent. -/
def insertC (c : Cell) (l : List Cell) : List Cell :=
  if c ∈ l then l else l ++ [c]

/-- Sentence equality of Sentence.eq in the source: equal cell sets and equal counts. -/
def sentEq (s t : Sentence) : Bool :=
  s.cells.all (fun c => decide (c ∈ t.cells)) &&
  t.cells.all (fun c => decide (c ∈ s.cells)) &&
  (s.count == t.count)

/-- Sentence.known_mines: all cells when the count equals the number of cells, else empty. -/
def Sentence.known_mines (s : Sentence) : List Cell :=
  if (s.cells.length : Int) = s.count then s.cells else []

/-- Sentence.known_safes: all cells when the count is zero, else empty. -/
def Sentence.known_safes (s : Sentence) : List Cell :=
  if s.count = 0 then s.cells else []

/-- Sentence.mark_mine: when the cell is present, remove it and decrement the count. -/
def Sentence.mark_mine (c : Cell) (s : Sentence) : Sentence :=
  if c ∈ s.cells then ⟨s.cells.erase c, s.count - 1⟩ else s

/-- Sentence.mark_safe: when the cell is present, remove it; the count is unchanged. -/
def Sentence.mark_safe (c : Cell) (s : Sentence) : Sentence :=
  if c ∈ s.cells then ⟨s.cells.erase c, s.count⟩ else s

/-- State of class MinesweeperAI. -/
structure AIState where
  height : Int
  width : Int
  moves_made : List Cell
  safes : List Cell
  mines : List Cell
  knowledge : List Sentence
deriving DecidableEq

/-- MinesweeperAI constructor: empty sets and an empty knowledge base. -/
def AI.init (h w : Int) : AIState := ⟨h, w, [], [], [], []⟩

/-- MinesweeperAI.mark_mine: add the cell to mines and update every live sentence. -/
def AI.mark_mine (c : Cell) (st : AIState) : AIState :=
  { st with mines := insertC c st.mines,
            knowledge := st.knowledge.map (Sentence.mark_mine c) }

/-- MinesweeperAI.mark_safe: add the cell to safes and update every live sentence. -/
def AI.mark_safe (c : Cell) (st : AIState) : AIState :=
  { st with safes := insertC c st.safes,
            knowledge := st.knowledge.map (Sentence.mark_safe c) }

/-- Loop calling MinesweeperAI.mark_mine on each cell of a list, threading a
snapshot list whose entries alias live sentences. -/
def marksMine : List Cell → AIState → List Sentence → AIState × List Sentence
  | [], st, extra => (st, extra)
  | c :: cs, st, extra =>
      marksMine cs (AI.mark_mine c st) (extra.map (Sentence.mark_mine c))

/-- Loop calling MinesweeperAI.mark_safe on each cell of a list, threading a
snapshot list whose entries alias live sentences. -/
def marksSafe : List Cell → AIState → List Sentence → AIState × List Sentence
  | [], st, extra => (st, extra)
  | c :: cs, st, extra =>
      marksSafe cs (AI.mark_safe c st) (extra.map (Sentence.mark_safe c))

/-- Python list.remove with Sentence equality: drop the first entry equal to s. -/
def removeFirstEq (s : Sentence) : List Sentence → List Sentence
  | [] => []
  | t :: rest => if sentEq s t then rest else t :: removeFirstEq s rest

/-- One pass of the loop body of MinesweeperAI.trivial_update over the snapshot
copy_kb.  The Nat counter is always called with the snapshot length, so the
recursion is structural; extra is an ambient snapshot kept aliased. -/
def trivialPassAux : Nat → List Sentence → AIState → List Sentence → Bool →
    AIState × List Sentence × Bool
  | 0, _, st, extra, ch => (st, extra, ch)
  | _ + 1, [], st, extra, ch => (st, extra, ch)
  | k + 1, s :: rest, st, extra, ch =>
      if s.cells = [] then
        trivialPassAux k rest { st with knowledge := removeFirstEq s st.knowledge } extra ch
      else if s.count = (s.cells.length : Int) then
        let p := marksMine s.cells st (rest ++ extra)
        trivialPassAux k (p.2.take rest.length) p.1 (p.2.drop rest.length) true
      else if s.count = 0 then
        let p := marksSafe s.cells st (rest ++ extra)
        trivialPassAux k (p.2.take rest.length) p.1 (p.2.drop rest.length) true
      else
        trivialPassAux k rest st extra ch

/-- One pass of MinesweeperAI.trivial_update starting from the snapshot of the
current knowledge base. -/
def trivialPass (snap : List Sentence) (st : AIState) (extra : List Sentence) (ch : Bool) :
    AIState × List Sentence × Bool :=
  trivialPassAux snap.length snap st extra ch

/-- MinesweeperAI.trivial_update: while-change loop of passes, with fuel. -/
def trivial_update : Nat → AIState → List Sentence → Option (AIState × List Sentence)
  | 0, _, _ => none
  | f + 1, st, extra =>
      let r := trivialPass st.knowledge st extra false
      if r.2.2 then trivial_update f r.1 r.2.1 else some (r.1, r.2.1)

/-- Derived sentence of the subset-inference rule in
MinesweeperAI.inference_update: cell-set difference and count difference. -/
def deriveS (s1 s2 : Sentence) : Sentence :=
  ⟨s2.cells.filter (fun c => decide (c ∉ s1.cells)), s2.count - s1.count⟩

/-- Inner for-loop of one pass of MinesweeperAI.inference_update: the pair
(i, j) indexes the snapshot sn, which aliases the live sentences and is kept
in sync with every mark. -/
def inferInner (tf : Nat) (i : Nat) : List Nat → List Sentence → AIState → Bool →
    Option (List Sentence × AIState × Bool)
  | [], sn, st, ch => some (sn, st, ch)
  | j :: js, sn, st, ch =>
      let s1 := sn.getD i ⟨[], 0⟩
      let s2 := sn.getD j ⟨[], 0⟩
      if sentEq s1 s2 then inferInner tf i js sn st ch
      else if s1.cells.all (fun c => decide (c ∈ s2.cells)) then
        let ns := deriveS s1 s2
        if ns.count = 0 then
          let p := marksSafe ns.cells st sn
          match trivial_update tf p.1 p.2 with
          | none => none
          | some (st', sn') => inferInner tf i js sn' st' true
        else if ns.count = (ns.cells.length : Int) then
          let p := marksMine ns.cells st sn
          match trivial_update tf p.1 p.2 with
          | none => none
          | some (st', sn') => inferInner tf i js sn' st' true
        else
          match trivial_update tf { st with knowledge := st.knowledge ++ [ns] } sn with
          | none => none
          | some (st', sn') => inferInner tf i js sn' st' true
      else inferInner tf i js sn st ch

/-- Outer for-loop of one pass of MinesweeperAI.inference_update; L is the
snapshot length at pass start. -/
def inferOuter (tf : Nat) (L : Nat) : List Nat → List Sentence → AIState → Bool →
    Option (List Sentence × AIState × Bool)
  | [], sn, st, ch => some (sn, st, ch)
  | i :: is, sn, st, ch =>
      match inferInner tf i (List.range L) sn st ch with
      | none => none
      | some (sn', st', ch') => inferOuter tf L is sn' st' ch'

/-- MinesweeperAI.inference_update: while-change loop of pair-scan passes,
with fuel for the outer loop and for each nested trivial_update call. -/
def inference_update : Nat → Nat → AIState → Option AIState
  | 0, _, _ => none
  | f + 1, tf, st =>
      let sn := st.knowledge
      match inferOuter tf sn.length (List.range sn.length) sn st false with
      | none => none
      | some (_, st', ch) => if ch then inference_update f tf st' else some st'

/-- Neighbor offsets scanned by the nested loops in MinesweeperAI.add_knowledge,
in Python iteration order. -/
def neighborOffs : List (Int × Int) :=
  [(-1, -1), (-1, 0), (-1, 1), (0, -1), (0, 0), (0, 1), (1, -1), (1, 0), (1, 1)]

/-- Body of one iteration of the neighbor-collection loop of
MinesweeperAI.add_knowledge: skip out-of-bounds and played and safe cells,
decrement the count for a known mine, otherwise accumulate the neighbor. -/
def neighStep (st : AIState) (cell : Cell) (p : List Cell × Int) (o : Int × Int) :
    List Cell × Int :=
  let i := cell.1 + o.1
  let j := cell.2 + o.2
  if i < 0 ∨ j < 0 then p
  else if st.height ≤ i ∨ st.width ≤ j then p
  else if (i, j) ∈ st.moves_made then p
  else if (i, j) ∈ st.mines then (p.1, p.2 - 1)
  else if (i, j) ∈ st.safes then p
  else (insertC (i, j) p.1, p.2)

/-- Neighbor-collection loop of MinesweeperAI.add_knowledge: accumulate
unclassified in-bounds neighbors and adjust the count for known mines. -/
def collectNeighbors (st : AIState) (cell : Cell) (count : Int) : List Cell × Int :=
  neighborOffs.foldl (neighStep st cell) ([], count)

/-- MinesweeperAI.add_knowledge: record the move, mark the cell safe, build and
classify the observation sentence, then run both fixpoint loops. -/
def add_knowledge (tf fi : Nat) (st : AIState) (cell : Cell) (count : Int) :
    Option AIState :=
  let st1 := { st with moves_made := insertC cell st.moves_made }
  let st2 := AI.mark_safe cell st1
  let pr := collectNeighbors st2 cell count
  let ns : Sentence := ⟨pr.1, pr.2⟩
  let st3 :=
    if ns.count = 0 then (marksSafe ns.cells st2 []).1
    else if ns.count = (ns.cells.length : Int) then (marksMine ns.cells st2 []).1
    else { st2 with knowledge := st2.knowledge ++ [ns] }
  match trivial_update tf st3 [] with
  | none => none
  | some (st4, _) => inference_update fi tf st4

/-- MinesweeperAI.make_safe_move: an unplayed safe cell, or none; the second
component is the engine state the call leaves behind. -/
def make_safe_move (st : AIState) : Option Cell × AIState :=
  let safe_moves := st.safes.filter (fun c => decide (c ∉ st.moves_made))
  if safe_moves.length = 0 then (none, st) else (safe_moves.head?, st)

/-- MinesweeperAI.make_random_move: a cell neither played nor known to be a
mine, or none; the second component is the engine state the call leaves behind. -/
def make_random_move (st : AIState) : Option Cell × AIState :=
  let all_cells := (List.range st.height.toNat).flatMap
    (fun i => (List.range st.width.toNat).map (fun j => ((i : Int), (j : Int))))
  let cells_to_choose :=
    (all_cells.filter (fun c => decide (c ∉ st.moves_made))).filter
      (fun c => decide (c ∉ st.mines))
  if cells_to_choose.length ≠ 0 then (cells_to_choose.head?, st) else (none, st)

/-- States reachable from a fresh engine by the public operations; the two
query operations do not change the state. -/
inductive Reachable : AIState → Prop where
  | init : ∀ h w, Reachable (AI.init h w)
  | mark_mine : ∀ c st, Reachable st → Reachable (AI.mark_mine c st)
  | mark_safe : ∀ c st, Reachable st → Reachable (AI.mark_safe c st)
  | addK : ∀ tf fi st c n st', Reachable st →
      add_knowledge tf fi st c n = some st' → Reachable st'
  | triv : ∀ f st st' e', Reachable st →
      trivial_update f st [] = some (st', e') → Reachable st'
  | infer : ∀ f tf st st', Reachable st →
      inference_update f tf st = some st' → Reachable st'

/-- Sentence produced by the first observation of the divergence trace. -/
def sObs1 : Sentence :=
  ⟨[(0, 0), (0, 1), (0, 2), (1, 0), (1, 2), (2, 0), (2, 1), (2, 2)], 2⟩

/-- Engine state after add_knowledge (1,1) 2 on a fresh 4 by 4 engine. -/
def st1c : AIState := ⟨4, 4, [(1, 1)], [(1, 1)], [], [sObs1]⟩

/-- Value of the larger sentence in the diverging knowledge base. -/
def S2v : Sentence :=
  ⟨[(0, 1), (0, 2), (1, 0), (1, 2), (2, 0), (2, 1), (2, 2)], 2⟩

/-- Value of the smaller sentence in the diverging knowledge base. -/
def S1v : Sentence := ⟨[(0, 1), (1, 0)], 1⟩

/-- Value of the sentence the diverging loop derives over and over. -/
def S3v : Sentence := ⟨[(0, 2), (1, 2), (2, 0), (2, 1), (2, 2)], 1⟩

/-- Engine state at the moment inference_update is entered inside the second
observation of the divergence trace. -/
def stBad : AIState :=
  ⟨4, 4, [(1, 1), (0, 0)], [(1, 1), (0, 0)], [], [S2v, S1v]⟩

/-- Sentences whose value the diverging knowledge base can hold. -/
def bad3 (s : Sentence) : Prop := s = S1v ∨ s = S2v ∨ s = S3v

/-- Knowledge-base shape on which inference_update loops forever. -/
def BadSt (st : AIState) : Prop :=
  (∀ s ∈ st.knowledge, bad3 s) ∧ S1v ∈ st.knowledge ∧ S2v ∈ st.knowledge

/-- Well-formedness carried by every reachable state: sentence cell lists
represent sets, and classified cells never linger inside a sentence. -/
def okS (sa mi : List Cell) (s : Sentence) : Prop :=
  s.cells.Nodup ∧ ∀ c ∈ s.cells, c ∉ sa ∧ c ∉ mi

/-- Invariant for the fixpoint proofs: every live sentence and every aliased
snapshot entry is well formed for the current safes and mines. -/
def InvP (st : AIState) (extra : List Sentence) : Prop :=
  (∀ s ∈ st.knowledge, okS st.safes st.mines s) ∧
  (∀ s ∈ extra, okS st.safes st.mines s)

/-- Relation between a state and a later state of the same call: moves_made is
untouched and the two classification sets only grow. -/
def SetsMono (st st' : AIState) : Prop :=
  st'.moves_made = st.moves_made ∧ st.safes ⊆ st'.safes ∧ st.mines ⊆ st'.mines

/-- Engine state after add_knowledge (0,0) 1 on a fresh 4 by 4 engine. -/
def stA4 : AIState :=
  ⟨4, 4, [(0, 0)], [(0, 0)], [], [⟨[(0, 1), (1, 0), (1, 1)], 1⟩]⟩

/-- Engine state after calling add_knowledge (0,0) 1 twice on a fresh 4 by 4
engine: the duplicate observation sentence is appended again. -/
def stB4 : AIState :=
  ⟨4, 4, [(0, 0)], [(0, 0)], [],
    [⟨[(0, 1), (1, 0), (1, 1)], 1⟩, ⟨[(0, 1), (1, 0), (1, 1)], 1⟩]⟩

/-- Example sentence S1 of the subset-inference test: two cells, one mine. -/
def s1ex : Sentence := ⟨[(0, 0), (0, 1)], 1⟩

/-- Example sentence S2 of the subset-inference test: three cells, two mines. -/
def s2ex : Sentence := ⟨[(0, 0), (0, 1), (0, 2)], 2⟩

/-- Engine state holding exactly the two subset-inference test sentences. -/
def stEx : AIState := ⟨4, 4, [], [], [], [s1ex, s2ex]⟩

/-- Engine state whose knowledge base is the single all-mine test sentence. -/
def stT1 : AIState := ⟨4, 4, [], [], [], [⟨[(0, 0), (0, 1)], 2⟩]⟩

/-- Engine state whose knowledge base is the single all-safe test sentence. -/
def stT2 : AIState := ⟨4, 4, [], [], [], [⟨[(0, 0), (0, 1), (0, 2)], 0⟩]⟩

theorem mem_insertC {x c : Cell} {l : List Cell} : x ∈ insertC c l ↔ x = c ∨ x ∈ l := by
  unfold insertC
  split
  · rename_i h
    constructor
    · exact fun hx => Or.inr hx
    · rintro (rfl | hx)
      · exact h
      · exact hx
  · simp [List.mem_append, or_comm]

theorem mem_insertC_self (c : Cell) (l : List Cell) : c ∈ insertC c l :=
  mem_insertC.mpr (Or.inl rfl)

theorem subset_insertC (c : Cell) (l : List Cell) : l ⊆ insertC c l :=
  fun _ hx => mem_insertC.mpr (Or.inr hx)

theorem insertC_of_mem {c : Cell} {l : List Cell} (h : c ∈ l) : insertC c l = l := by
  simp [insertC, h]

theorem insertC_idem (c : Cell) (l : List Cell) : insertC c (insertC c l) = insertC c l :=
  insertC_of_mem (mem_insertC_self c l)

theorem mark_mine_idem {c : Cell} {s : Sentence} (h : s.cells.Nodup) :
    Sentence.mark_mine c (Sentence.mark_mine c s) = Sentence.mark_mine c s := by
  unfold Sentence.mark_mine
  by_cases hc : c ∈ s.cells
  · rw [if_pos hc]
    have hnc : c ∉ s.cells.erase c := fun hmem => ((h.mem_erase_iff).1 hmem).1 rfl
    simp [hnc]
  · simp [hc]

theorem mark_safe_idem {c : Cell} {s : Sentence} (h : s.cells.Nodup) :
    Sentence.mark_safe c (Sentence.mark_safe c s) = Sentence.mark_safe c s := by
  unfold Sentence.mark_safe
  by_cases hc : c ∈ s.cells
  · rw [if_pos hc]
    have hnc : c ∉ s.cells.erase c := fun hmem => ((h.mem_erase_iff).1 hmem).1 rfl
    simp [hnc]
  · simp [hc]

theorem okS_mark_mine {sa mi : List Cell} {c : Cell} {s : Sentence} (h : okS sa mi s) :
    okS sa (insertC c mi) (Sentence.mark_mine c s) := by
  obtain ⟨hn, hok⟩ := h
  unfold Sentence.mark_mine
  by_cases hc : c ∈ s.cells
  · rw [if_pos hc]
    refine ⟨hn.erase c, fun x hx => ?_⟩
    obtain ⟨hxc, hxs⟩ := (hn.mem_erase_iff).1 hx
    obtain ⟨h1, h2⟩ := hok x hxs
    refine ⟨h1, fun hmem => ?_⟩
    rcases mem_insertC.1 hmem with rfl | hmi
    · exact hxc rfl
    · exact h2 hmi
  · rw [if_neg hc]
    refine ⟨hn, fun x hxs => ?_⟩
    obtain ⟨h1, h2⟩ := hok x hxs
    refine ⟨h1, fun hmem => ?_⟩
    rcases mem_insertC.1 hmem with rfl | hmi
    · exact hc hxs
    · exact h2 hmi

theorem okS_mark_safe {sa mi : List Cell} {c : Cell} {s : Sentence} (h : okS sa mi s) :
    okS (insertC c sa) mi (Sentence.mark_safe c s) := by
  obtain ⟨hn, hok⟩ := h
  unfold Sentence.mark_safe
  by_cases hc : c ∈ s.cells
  · rw [if_pos hc]
    refine ⟨hn.erase c, fun x hx => ?_⟩
    obtain ⟨hxc, hxs⟩ := (hn.mem_erase_iff).1 hx
    obtain ⟨h1, h2⟩ := hok x hxs
    refine ⟨fun hmem => ?_, h2⟩
    rcases mem_insertC.1 hmem with rfl | hsa
    · exact hxc rfl
    · exact h1 hsa
  · rw [if_neg hc]
    refine ⟨hn, fun x hxs => ?_⟩
    obtain ⟨h1, h2⟩ := hok x hxs
    refine ⟨fun hmem => ?_, h2⟩
    rcases mem_insertC.1 hmem with rfl | hsa
    · exact hc hxs
    · exact h1 hsa

theorem marksMine_fst_extra (cs : List Cell) (st : AIState) (e e' : List Sentence) :
    (marksMine cs st e).1 = (marksMine cs st e').1 := by
  induction cs generalizing st e e' with
  | nil => rfl
  | cons c cs ih => exact ih (AI.mark_mine c st) _ _

theorem marksSafe_fst_extra (cs : List Cell) (st : AIState) (e e' : List Sentence) :
    (marksSafe cs st e).1 = (marksSafe cs st e').1 := by
  induction cs generalizing st e e' with
  | nil => rfl
  | cons c cs ih => exact ih (AI.mark_safe c st) _ _

theorem marksMine_snd_append (cs : List Cell) (st : AIState) (a b : List Sentence) :
    (marksMine cs st (a ++ b)).2 = (marksMine cs st a).2 ++ (marksMine cs st b).2 := by
  induction cs generalizing st a b with
  | nil => rfl
  | cons c cs ih =>
      simp only [marksMine, List.map_append]
      rw [ih]

theorem marksSafe_snd_append (cs : List Cell) (st : AIState) (a b : List Sentence) :
    (marksSafe cs st (a ++ b)).2 = (marksSafe cs st a).2 ++ (marksSafe cs st b).2 := by
  induction cs generalizing st a b with
  | nil => rfl
  | cons c cs ih =>
      simp only [marksSafe, List.map_append]
      rw [ih]

theorem marksMine_snd_length (cs : List Cell) (st : AIState) (e : List Sentence) :
    (marksMine cs st e).2.length = e.length := by
  induction cs generalizing st e with
  | nil => rfl
  | cons c cs ih => simp only [marksMine]; rw [ih, List.length_map]

theorem marksSafe_snd_length (cs : List Cell) (st : AIState) (e : List Sentence) :
    (marksSafe cs st e).2.length = e.length := by
  induction cs generalizing st e with
  | nil => rfl
  | cons c cs ih => simp only [marksSafe]; rw [ih, List.length_map]

theorem invP_mark_mine {st : AIState} {extra : List Sentence} {c : Cell} (h : InvP st extra) :
    InvP (AI.mark_mine c st) (extra.map (Sentence.mark_mine c)) := by
  obtain ⟨h1, h2⟩ := h
  constructor
  · intro s hs
    rcases List.mem_map.1 hs with ⟨t, ht, rfl⟩
    exact okS_mark_mine (h1 t ht)
  · intro s hs
    rcases List.mem_map.1 hs with ⟨t, ht, rfl⟩
    exact okS_mark_mine (h2 t ht)

theorem invP_mark_safe {st : AIState} {extra : List Sentence} {c : Cell} (h : InvP st extra) :
    InvP (AI.mark_safe c st) (extra.map (Sentence.mark_safe c)) := by
  obtain ⟨h1, h2⟩ := h
  constructor
  · intro s hs
    rcases List.mem_map.1 hs with ⟨t, ht, rfl⟩
    exact okS_mark_safe (h1 t ht)
  · intro s hs
    rcases List.mem_map.1 hs with ⟨t, ht, rfl⟩
    exact okS_mark_safe (h2 t ht)

theorem invP_marksMine (cs : List Cell) {st : AIState} {e : List Sentence} (h : InvP st e) :
    InvP (marksMine cs st e).1 (marksMine cs st e).2 := by
  induction cs generalizing st e with
  | nil => exact h
  | cons c cs ih => exact ih (invP_mark_mine h)

theorem invP_marksSafe (cs : List Cell) {st : AIState} {e : List Sentence} (h : InvP st e) :
    InvP (marksSafe cs st e).1 (marksSafe cs st e).2 := by
  induction cs generalizing st e with
  | nil => exact h
  | cons c cs ih => exact ih (invP_mark_safe h)

theorem removeFirstEq_subset (s : Sentence) (l : List Sentence) :
    ∀ t ∈ removeFirstEq s l, t ∈ l := by
  induction l with
  | nil => intro t ht; exact absurd ht (List.not_mem_nil t)
  | cons a rest ih =>
      intro t ht
      unfold removeFirstEq at ht
      split at ht
      · exact List.mem_cons_of_mem a ht
      · rcases List.mem_cons.1 ht with rfl | h
        · exact List.mem_cons_self t rest
        · exact List.mem_cons_of_mem a (ih t h)

theorem invP_knowledge_subset {st : AIState} {extra : List Sentence} {k : List Sentence}
    (h : InvP st extra) (hk : ∀ t ∈ k, t ∈ st.knowledge) :
    InvP { st with knowledge := k } extra :=
  ⟨fun s hs => h.1 s (hk s hs), h.2⟩

theorem invP_trivialPassAux (k : Nat) :
    ∀ (snap : List Sentence) (st : AIState) (extra : List Sentence) (ch : Bool),
    InvP st extra →
    InvP (trivialPassAux k snap st extra ch).1 (trivialPassAux k snap st extra ch).2.1 := by
  induction k with
  | zero => intro snap st extra ch h; exact h
  | succ k ih =>
      intro snap st extra ch h
      cases snap with
      | nil => exact h
      | cons s rest =>
          simp only [trivialPassAux]
          by_cases h1 : s.cells = []
          · simp only [if_pos h1]
            exact ih _ _ _ _ (invP_knowledge_subset h (removeFirstEq_subset s st.knowledge))
          · simp only [if_neg h1]
            by_cases h2 : s.count = (s.cells.length : Int)
            · simp only [if_pos h2]
              have hfst : (marksMine s.cells st (rest ++ extra)).1
                  = (marksMine s.cells st extra).1 := marksMine_fst_extra _ _ _ _
              have hdrop : (marksMine s.cells st (rest ++ extra)).2.drop rest.length
                  = (marksMine s.cells st extra).2 := by
                rw [marksMine_snd_append]
                rw [show rest.length = (marksMine s.cells st rest).2.length from
                  (marksMine_snd_length s.cells st rest).symm]
                exact List.drop_left _ _
              rw [hfst, hdrop]
              exact ih _ _ _ _ (invP_marksMine _ h)
            · simp only [if_neg h2]
              by_cases h3 : s.count = 0
              · simp only [if_pos h3]
                have hfst : (marksSafe s.cells st (rest ++ extra)).1
                    = (marksSafe s.cells st extra).1 := marksSafe_fst_extra _ _ _ _
                have hdrop : (marksSafe s.cells st (rest ++ extra)).2.drop rest.length
                    = (marksSafe s.cells st extra).2 := by
                  rw [marksSafe_snd_append]
                  rw [show rest.length = (marksSafe s.cells st rest).2.length from
                    (marksSafe_snd_length s.cells st rest).symm]
                  exact List.drop_left _ _
                rw [hfst, hdrop]
                exact ih _ _ _ _ (invP_marksSafe _ h)
              · simp only [if_neg h3]
                exact ih _ _ _ _ h

theorem invP_trivial_update (f : Nat) :
    ∀ (st : AIState) (extra : List Sentence) (st' : AIState) (e' : List Sentence),
    InvP st extra → trivial_update f st extra = some (st', e') → InvP st' e' := by
  induction f with
  | zero => intro st extra st' e' _ h; exact absurd h (by simp [trivial_update])
  | succ f ih =>
      intro st extra st' e' h heq
      simp only [trivial_update] at heq
      have hp := invP_trivialPassAux st.knowledge.length st.knowledge st extra false h
      split at heq
      · exact ih _ _ _ _ hp heq
      · injection heq with heq'
        obtain ⟨rfl, rfl⟩ := Prod.mk.injEq .. ▸ Prod.mk.inj heq'
        exact hp

theorem okS_default (sa mi : List Cell) : okS sa mi ⟨[], 0⟩ :=
  ⟨List.nodup_nil, by intro c hc; exact absurd hc (List.not_mem_nil c)⟩

theorem okS_getD {st : AIState} {sn : List Sentence} (h : InvP st sn) (j : Nat) :
    okS st.safes st.mines (sn.getD j ⟨[], 0⟩) := by
  by_cases hj : j < sn.length
  · rw [List.getD_eq_getElem sn _ hj]
    exact h.2 _ (List.getElem_mem hj)
  · rw [List.getD_eq_default sn _ (Nat.le_of_not_lt hj)]
    exact okS_default _ _

theorem okS_deriveS {sa mi : List Cell} {s1 s2 : Sentence} (h : okS sa mi s2) :
    okS sa mi (deriveS s1 s2) := by
  obtain ⟨hn, hok⟩ := h
  refine ⟨hn.filter _, fun c hc => hok c (List.mem_filter.1 hc).1⟩

theorem invP_inferInner (js : List Nat) :
    ∀ (tf i : Nat) (sn : List Sentence) (st : AIState) (ch : Bool)
      (sn' : List Sentence) (st' : AIState) (ch' : Bool),
    InvP st sn → inferInner tf i js sn st ch = some (sn', st', ch') → InvP st' sn' := by
  induction js with
  | nil =>
      intro tf i sn st ch sn' st' ch' h heq
      simp only [inferInner, Option.some.injEq, Prod.mk.injEq] at heq
      obtain ⟨rfl, rfl, rfl⟩ := heq
      exact h
  | cons j js ih =>
      intro tf i sn st ch sn' st' ch' h heq
      simp only [inferInner] at heq
      split at heq
      · exact ih _ _ _ _ _ _ _ _ h heq
      · split at heq
        · split at heq
          · -- derived count is zero: mark all safe
            split at heq
            · exact absurd heq (by simp)
            · rename_i st'' sn'' hupd
              exact ih _ _ _ _ _ _ _ _
                (invP_trivial_update _ _ _ _ _ (invP_marksSafe _ h) hupd) heq
          · split at heq
            · -- derived count equals size: mark all mine
              split at heq
              · exact absurd heq (by simp)
              · rename_i st'' sn'' hupd
                exact ih _ _ _ _ _ _ _ _
                  (invP_trivial_update _ _ _ _ _ (invP_marksMine _ h) hupd) heq
            · -- append the derived sentence
              split at heq
              · exact absurd heq (by simp)
              · rename_i st'' sn'' hupd
                have happ : InvP { st with knowledge :=
                    st.knowledge ++ [deriveS (sn.getD i ⟨[], 0⟩) (sn.getD j ⟨[], 0⟩)] } sn := by
                  refine ⟨fun s hs => ?_, h.2⟩
                  rcases List.mem_append.1 hs with hs | hs
                  · exact h.1 s hs
                  · rcases List.mem_singleton.1 hs with rfl
                    exact okS_deriveS (okS_getD h j)
                exact ih _ _ _ _ _ _ _ _
                  (invP_trivial_update _ _ _ _ _ happ hupd) heq
        · exact ih _ _ _ _ _ _ _ _ h heq

theorem invP_inferOuter (is : List Nat) :
    ∀ (tf L : Nat) (sn : List Sentence) (st : AIState) (ch : Bool)
      (sn' : List Sentence) (st' : AIState) (ch' : Bool),
    InvP st sn → inferOuter tf L is sn st ch = some (sn', st', ch') → InvP st' sn' := by
  induction is with
  | nil =>
      intro tf L sn st ch sn' st' ch' h heq
      simp only [inferOuter, Option.some.injEq, Prod.mk.injEq] at heq
      obtain ⟨rfl, rfl, rfl⟩ := heq
      exact h
  | cons i is ih =>
      intro tf L sn st ch sn' st' ch' h heq
      simp only [inferOuter] at heq
      split at heq
      · exact absurd heq (by simp)
      · rename_i sn'' st'' ch'' hinner
        exact ih _ _ _ _ _ _ _ _ (invP_inferInner _ _ _ _ _ _ _ _ _ h hinner) heq

theorem invP_inference_update (f : Nat) :
    ∀ (tf : Nat) (st : AIState) (st' : AIState),
    InvP st [] → inference_update f tf st = some st' → InvP st' [] := by
  induction f with
  | zero => intro tf st st' _ h; exact absurd h (by simp [inference_update])
  | succ f ih =>
      intro tf st st' h heq
      simp only [inference_update] at heq
      split at heq
      · exact absurd heq (by simp)
      · rename_i sn'' st'' ch'' houter
        have hfull : InvP st st.knowledge := ⟨h.1, h.1⟩
        have hinv := invP_inferOuter _ _ _ _ _ _ _ _ _ hfull houter
        have hinv0 : InvP st'' [] :=
          ⟨hinv.1, fun s hs => absurd hs (List.not_mem_nil s)⟩
        split at heq
        · exact ih _ _ _ hinv0 heq
        · injection heq with heq'; exact heq' ▸ hinv0

theorem insertC_nodup {c : Cell} {l : List Cell} (h : l.Nodup) : (insertC c l).Nodup := by
  unfold insertC
  split
  · exact h
  · rename_i hmem
    simp [List.nodup_append, h, hmem]

theorem neighStep_ok (st : AIState) (cell : Cell) (p : List Cell × Int) (o : Int × Int)
    (hn : p.1.Nodup) (hok : ∀ x ∈ p.1, x ∉ st.safes ∧ x ∉ st.mines) :
    (neighStep st cell p o).1.Nodup ∧
    ∀ x ∈ (neighStep st cell p o).1, x ∉ st.safes ∧ x ∉ st.mines := by
  simp only [neighStep]
  split
  · exact ⟨hn, hok⟩
  · split
    · exact ⟨hn, hok⟩
    · split
      · exact ⟨hn, hok⟩
      · split
        · exact ⟨hn, hok⟩
        · split
          · exact ⟨hn, hok⟩
          · rename_i hbound hmoves hmine hsafe
            refine ⟨insertC_nodup hn, fun x hx => ?_⟩
            rcases mem_insertC.1 hx with rfl | hx
            · exact ⟨hsafe, hmine⟩
            · exact hok x hx

theorem collect_foldl_ok (offs : List (Int × Int)) (st : AIState) (cell : Cell) :
    ∀ (p : List Cell × Int), p.1.Nodup → (∀ x ∈ p.1, x ∉ st.safes ∧ x ∉ st.mines) →
    (offs.foldl (neighStep st cell) p).1.Nodup ∧
    ∀ x ∈ (offs.foldl (neighStep st cell) p).1, x ∉ st.safes ∧ x ∉ st.mines := by
  induction offs with
  | nil => intro p hn hok; exact ⟨hn, hok⟩
  | cons o offs ih =>
      intro p hn hok
      rw [List.foldl_cons]
      obtain ⟨hn', hok'⟩ := neighStep_ok st cell p o hn hok
      exact ih _ hn' hok'

theorem collectNeighbors_ok (st : AIState) (cell : Cell) (count : Int) :
    (collectNeighbors st cell count).1.Nodup ∧
    ∀ x ∈ (collectNeighbors st cell count).1, x ∉ st.safes ∧ x ∉ st.mines := by
  unfold collectNeighbors
  exact collect_foldl_ok _ _ _ _ List.nodup_nil
    (fun x hx => absurd hx (List.not_mem_nil x))


theorem invP_nil_of {st : AIState} {e : List Sentence} (h : InvP st e) : InvP st [] :=
  ⟨h.1, fun s hs => absurd hs (List.not_mem_nil s)⟩

theorem invP_classify {st2 : AIState} (ns : Sentence) (h2 : InvP st2 [])
    (hok : okS st2.safes st2.mines ns) :
    InvP (if ns.count = 0 then (marksSafe ns.cells st2 []).1
      else if ns.count = (ns.cells.length : Int) then (marksMine ns.cells st2 []).1
      else { st2 with knowledge := st2.knowledge ++ [ns] }) [] := by
  split
  · exact invP_nil_of (invP_marksSafe ns.cells h2)
  · split
    · exact invP_nil_of (invP_marksMine ns.cells h2)
    · refine ⟨fun s hs => ?_, fun s hs => absurd hs (List.not_mem_nil s)⟩
      rcases List.mem_append.1 hs with hs | hs
      · exact h2.1 s hs
      · rcases List.mem_singleton.1 hs with rfl
        exact hok

theorem invP_add_knowledge {tf fi : Nat} {st : AIState} {cell : Cell} {count : Int}
    {st' : AIState} (h : InvP st [])
    (heq : add_knowledge tf fi st cell count = some st') : InvP st' [] := by
  simp only [add_knowledge] at heq
  split at heq
  · exact absurd heq (by simp)
  · rename_i st4 e4 hupd
    have h1 : InvP { st with moves_made := insertC cell st.moves_made } [] := h
    have h2 : InvP (AI.mark_safe cell { st with moves_made := insertC cell st.moves_made }) [] := by
      have := @invP_mark_safe _ [] cell h1
      simpa using this
    have hok : okS (AI.mark_safe cell { st with moves_made := insertC cell st.moves_made }).safes
        (AI.mark_safe cell { st with moves_made := insertC cell st.moves_made }).mines
        (⟨(collectNeighbors (AI.mark_safe cell { st with moves_made := insertC cell st.moves_made })
            cell count).1,
          (collectNeighbors (AI.mark_safe cell { st with moves_made := insertC cell st.moves_made })
            cell count).2⟩ : Sentence) := by
      obtain ⟨ha, hb⟩ := collectNeighbors_ok
        (AI.mark_safe cell { st with moves_made := insertC cell st.moves_made }) cell count
      exact ⟨ha, hb⟩
    have h3 := invP_classify _ h2 hok
    have h4 := invP_trivial_update _ _ _ _ _ h3 hupd
    exact invP_inference_update _ _ _ _ (invP_nil_of h4) heq

theorem invP_reachable : ∀ st : AIState, Reachable st → InvP st [] := by
  intro st h
  induction h with
  | init h w =>
      exact ⟨fun s hs => absurd hs (List.not_mem_nil s),
        fun s hs => absurd hs (List.not_mem_nil s)⟩
  | mark_mine c st h ih =>
      have := @invP_mark_mine _ [] c ih
      simpa using this
  | mark_safe c st h ih =>
      have := @invP_mark_safe _ [] c ih
      simpa using this
  | addK tf fi st c n st' h heq ih => exact invP_add_knowledge ih heq
  | triv f st st' e' h heq ih => exact invP_nil_of (invP_trivial_update _ _ _ _ _ ih heq)
  | infer f tf st st' h heq ih => exact invP_inference_update _ _ _ _ ih heq

theorem setsMono_refl (st : AIState) : SetsMono st st :=
  ⟨rfl, List.Subset.refl _, List.Subset.refl _⟩

theorem setsMono_trans {s1 s2 s3 : AIState} (h1 : SetsMono s1 s2) (h2 : SetsMono s2 s3) :
    SetsMono s1 s3 :=
  ⟨h2.1.trans h1.1, h1.2.1.trans h2.2.1, h1.2.2.trans h2.2.2⟩

theorem setsMono_knowledge (st : AIState) (k : List Sentence) :
    SetsMono st { st with knowledge := k } :=
  ⟨rfl, List.Subset.refl _, List.Subset.refl _⟩

theorem setsMono_mark_mine (c : Cell) (st : AIState) : SetsMono st (AI.mark_mine c st) :=
  ⟨rfl, List.Subset.refl _, subset_insertC c st.mines⟩

theorem setsMono_mark_safe (c : Cell) (st : AIState) : SetsMono st (AI.mark_safe c st) :=
  ⟨rfl, subset_insertC c st.safes, List.Subset.refl _⟩

theorem setsMono_marksMine (cs : List Cell) :
    ∀ (st : AIState) (e : List Sentence), SetsMono st (marksMine cs st e).1 := by
  induction cs with
  | nil => intro st e; exact setsMono_refl st
  | cons c cs ih => intro st e; exact setsMono_trans (setsMono_mark_mine c st) (ih _ _)

theorem setsMono_marksSafe (cs : List Cell) :
    ∀ (st : AIState) (e : List Sentence), SetsMono st (marksSafe cs st e).1 := by
  induction cs with
  | nil => intro st e; exact setsMono_refl st
  | cons c cs ih => intro st e; exact setsMono_trans (setsMono_mark_safe c st) (ih _ _)

theorem setsMono_trivialPassAux (k : Nat) :
    ∀ (snap : List Sentence) (st : AIState) (extra : List Sentence) (ch : Bool),
    SetsMono st (trivialPassAux k snap st extra ch).1 := by
  induction k with
  | zero => intro snap st extra ch; exact setsMono_refl st
  | succ k ih =>
      intro snap st extra ch
      cases snap with
      | nil => exact setsMono_refl st
      | cons s rest =>
          simp only [trivialPassAux]
          by_cases h1 : s.cells = []
          · simp only [if_pos h1]
            exact setsMono_trans (setsMono_knowledge st _) (ih _ _ _ _)
          · simp only [if_neg h1]
            by_cases h2 : s.count = (s.cells.length : Int)
            · simp only [if_pos h2]
              exact setsMono_trans (setsMono_marksMine s.cells st _) (ih _ _ _ _)
            · simp only [if_neg h2]
              by_cases h3 : s.count = 0
              · simp only [if_pos h3]
                exact setsMono_trans (setsMono_marksSafe s.cells st _) (ih _ _ _ _)
              · simp only [if_neg h3]
                exact ih _ _ _ _

theorem setsMono_trivial_update (f : Nat) :
    ∀ (st : AIState) (extra : List Sentence) (st' : AIState) (e' : List Sentence),
    trivial_update f st extra = some (st', e') → SetsMono st st' := by
  induction f with
  | zero => intro st extra st' e' h; exact absurd h (by simp [trivial_update])
  | succ f ih =>
      intro st extra st' e' heq
      simp only [trivial_update] at heq
      have hp := setsMono_trivialPassAux st.knowledge.length st.knowledge st extra false
      split at heq
      · exact setsMono_trans hp (ih _ _ _ _ heq)
      · injection heq with heq'
        have h1 : (trivialPassAux st.knowledge.length st.knowledge st extra false).1 = st' :=
          congrArg Prod.fst heq'
        exact h1 ▸ hp

theorem setsMono_inferInner (js : List Nat) :
    ∀ (tf i : Nat) (sn : List Sentence) (st : AIState) (ch : Bool)
      (sn' : List Sentence) (st' : AIState) (ch' : Bool),
    inferInner tf i js sn st ch = some (sn', st', ch') → SetsMono st st' := by
  induction js with
  | nil =>
      intro tf i sn st ch sn' st' ch' heq
      simp only [inferInner, Option.some.injEq, Prod.mk.injEq] at heq
      obtain ⟨rfl, rfl, rfl⟩ := heq
      exact setsMono_refl _
  | cons j js ih =>
      intro tf i sn st ch sn' st' ch' heq
      simp only [inferInner] at heq
      split at heq
      · exact ih _ _ _ _ _ _ _ _ heq
      · split at heq
        · split at heq
          · split at heq
            · exact absurd heq (by simp)
            · rename_i st'' sn'' hupd
              exact setsMono_trans (setsMono_marksSafe _ st _)
                (setsMono_trans (setsMono_trivial_update _ _ _ _ _ hupd)
                  (ih _ _ _ _ _ _ _ _ heq))
          · split at heq
            · split at heq
              · exact absurd heq (by simp)
              · rename_i st'' sn'' hupd
                exact setsMono_trans (setsMono_marksMine _ st _)
                  (setsMono_trans (setsMono_trivial_update _ _ _ _ _ hupd)
                    (ih _ _ _ _ _ _ _ _ heq))
            · split at heq
              · exact absurd heq (by simp)
              · rename_i st'' sn'' hupd
                exact setsMono_trans (setsMono_knowledge st _)
                  (setsMono_trans (setsMono_trivial_update _ _ _ _ _ hupd)
                    (ih _ _ _ _ _ _ _ _ heq))
        · exact ih _ _ _ _ _ _ _ _ heq

theorem setsMono_inferOuter (is : List Nat) :
    ∀ (tf L : Nat) (sn : List Sentence) (st : AIState) (ch : Bool)
      (sn' : List Sentence) (st' : AIState) (ch' : Bool),
    inferOuter tf L is sn st ch = some (sn', st', ch') → SetsMono st st' := by
  induction is with
  | nil =>
      intro tf L sn st ch sn' st' ch' heq
      simp only [inferOuter, Option.some.injEq, Prod.mk.injEq] at heq
      obtain ⟨rfl, rfl, rfl⟩ := heq
      exact setsMono_refl _
  | cons i is ih =>
      intro tf L sn st ch sn' st' ch' heq
      simp only [inferOuter] at heq
      split at heq
      · exact absurd heq (by simp)
      · rename_i sn'' st'' ch'' hinner
        exact setsMono_trans (setsMono_inferInner _ _ _ _ _ _ _ _ _ hinner)
          (ih _ _ _ _ _ _ _ _ heq)

theorem setsMono_inference_update (f : Nat) :
    ∀ (tf : Nat) (st st' : AIState),
    inference_update f tf st = some st' → SetsMono st st' := by
  induction f with
  | zero => intro tf st st' h; exact absurd h (by simp [inference_update])
  | succ f ih =>
      intro tf st st' heq
      simp only [inference_update] at heq
      split at heq
      · exact absurd heq (by simp)
      · rename_i sn'' st'' ch'' houter
        have h1 := setsMono_inferOuter _ _ _ _ _ _ _ _ _ houter
        split at heq
        · exact setsMono_trans h1 (ih _ _ _ heq)
        · injection heq with heq'; exact heq' ▸ h1

theorem setsMono_classify (st2 : AIState) (ns : Sentence) :
    SetsMono st2 (if ns.count = 0 then (marksSafe ns.cells st2 []).1
      else if ns.count = (ns.cells.length : Int) then (marksMine ns.cells st2 []).1
      else { st2 with knowledge := st2.knowledge ++ [ns] }) := by
  split
  · exact setsMono_marksSafe ns.cells st2 []
  · split
    · exact setsMono_marksMine ns.cells st2 []
    · exact setsMono_knowledge st2 _

theorem add_knowledge_sets {tf fi : Nat} {st : AIState} {cell : Cell} {count : Int}
    {st' : AIState} (heq : add_knowledge tf fi st cell count = some st') :
    st'.moves_made = insertC cell st.moves_made ∧
    st.safes ⊆ st'.safes ∧ st.mines ⊆ st'.mines := by
  simp only [add_knowledge] at heq
  split at heq
  · exact absurd heq (by simp)
  · rename_i st4 e4 hupd
    have h2 := setsMono_classify
      (AI.mark_safe cell { st with moves_made := insertC cell st.moves_made })
      (⟨(collectNeighbors
          (AI.mark_safe cell { st with moves_made := insertC cell st.moves_made }) cell count).1,
        (collectNeighbors
          (AI.mark_safe cell { st with moves_made := insertC cell st.moves_made }) cell count).2⟩)
    have h3 := setsMono_trivial_update _ _ _ _ _ hupd
    have h4 := setsMono_inference_update _ _ _ _ heq
    have hall := setsMono_trans h2 (setsMono_trans h3 h4)
    refine ⟨?_, ?_, ?_⟩
    · exact hall.1
    · exact (subset_insertC cell st.safes).trans hall.2.1
    · exact hall.2.2

theorem bad3_getD {sn : List Sentence} (h : ∀ s ∈ sn, bad3 s) (i : Nat) :
    sn.getD i ⟨[], 0⟩ = S1v ∨ sn.getD i ⟨[], 0⟩ = S2v ∨ sn.getD i ⟨[], 0⟩ = S3v ∨
    sn.getD i ⟨[], 0⟩ = ⟨[], 0⟩ := by
  by_cases hi : i < sn.length
  · rw [List.getD_eq_getElem sn _ hi]
    rcases h _ (List.getElem_mem hi) with hb | hb | hb
    · exact Or.inl hb
    · exact Or.inr (Or.inl hb)
    · exact Or.inr (Or.inr (Or.inl hb))
  · exact Or.inr (Or.inr (Or.inr (List.getD_eq_default sn _ (Nat.le_of_not_lt hi))))

theorem trivialPassAux_inert (k : Nat) :
    ∀ (snap : List Sentence) (st : AIState) (extra : List Sentence) (ch : Bool),
    (∀ s ∈ snap, bad3 s) → trivialPassAux k snap st extra ch = (st, extra, ch) := by
  induction k with
  | zero => intros; rfl
  | succ k ih =>
      intro snap st extra ch h
      cases snap with
      | nil => rfl
      | cons s rest =>
          have hb := h s (List.mem_cons_self s rest)
          have h1 : ¬(s.cells = []) := by rcases hb with rfl | rfl | rfl <;> decide
          have h2 : ¬(s.count = (s.cells.length : Int)) := by
            rcases hb with rfl | rfl | rfl <;> decide
          have h3 : ¬(s.count = 0) := by rcases hb with rfl | rfl | rfl <;> decide
          simp only [trivialPassAux, if_neg h1, if_neg h2, if_neg h3]
          exact ih rest st extra ch (fun t ht => h t (List.mem_cons_of_mem s ht))

theorem trivial_update_badkb (f : Nat) (st : AIState) (extra : List Sentence)
    (h : ∀ s ∈ st.knowledge, bad3 s) :
    trivial_update (f + 1) st extra = some (st, extra) := by
  simp only [trivial_update, trivialPass]
  rw [trivialPassAux_inert _ _ _ _ _ h]
  rfl

theorem trivial_update_badkb_cases (f : Nat) (st : AIState) (extra : List Sentence)
    (h : ∀ s ∈ st.knowledge, bad3 s) :
    trivial_update f st extra = none ∨ trivial_update f st extra = some (st, extra) := by
  cases f with
  | zero => exact Or.inl rfl
  | succ f => exact Or.inr (trivial_update_badkb f st extra h)

theorem inferInner_cons_eq {tf i j : Nat} {js : List Nat} {sn : List Sentence}
    {st : AIState} {ch : Bool}
    (h : sentEq (sn.getD i ⟨[], 0⟩) (sn.getD j ⟨[], 0⟩) = true) :
    inferInner tf i (j :: js) sn st ch = inferInner tf i js sn st ch := by
  simp only [inferInner, h]
  rfl

theorem inferInner_cons_noSub {tf i j : Nat} {js : List Nat} {sn : List Sentence}
    {st : AIState} {ch : Bool}
    (h1 : sentEq (sn.getD i ⟨[], 0⟩) (sn.getD j ⟨[], 0⟩) = false)
    (h2 : (sn.getD i ⟨[], 0⟩).cells.all
      (fun c => decide (c ∈ (sn.getD j ⟨[], 0⟩).cells)) = false) :
    inferInner tf i (j :: js) sn st ch = inferInner tf i js sn st ch := by
  simp only [inferInner, h1, h2]
  rfl

theorem inferInner_cons_append {tf i j : Nat} {js : List Nat} {sn : List Sentence}
    {st : AIState} {ch : Bool}
    (h1 : sentEq (sn.getD i ⟨[], 0⟩) (sn.getD j ⟨[], 0⟩) = false)
    (h2 : (sn.getD i ⟨[], 0⟩).cells.all
      (fun c => decide (c ∈ (sn.getD j ⟨[], 0⟩).cells)) = true)
    (h3 : ¬((deriveS (sn.getD i ⟨[], 0⟩) (sn.getD j ⟨[], 0⟩)).count = 0))
    (h4 : ¬((deriveS (sn.getD i ⟨[], 0⟩) (sn.getD j ⟨[], 0⟩)).count =
      ((deriveS (sn.getD i ⟨[], 0⟩) (sn.getD j ⟨[], 0⟩)).cells.length : Int))) :
    inferInner tf i (j :: js) sn st ch =
      match trivial_update tf { st with knowledge :=
          st.knowledge ++ [deriveS (sn.getD i ⟨[], 0⟩) (sn.getD j ⟨[], 0⟩)] } sn with
      | none => none
      | some (st', sn') => inferInner tf i js sn' st' true := by
  simp only [inferInner, h1, h2, if_neg h3, if_neg h4]
  rfl

theorem inferInner_bad (js : List Nat) :
    ∀ (tf i : Nat) (sn : List Sentence) (st : AIState) (ch : Bool),
    (∀ s ∈ sn, bad3 s) → (∀ s ∈ st.knowledge, bad3 s) →
    inferInner tf i js sn st ch = none ∨
    ∃ st' ch', inferInner tf i js sn st ch = some (sn, st', ch') ∧
      (∀ s ∈ st'.knowledge, bad3 s) ∧
      (∀ s ∈ st.knowledge, s ∈ st'.knowledge) ∧
      (ch = true → ch' = true) ∧
      (∀ j0 ∈ js, sn.getD i ⟨[], 0⟩ = S1v → sn.getD j0 ⟨[], 0⟩ = S2v → ch' = true) := by
  induction js with
  | nil =>
      intro tf i sn st ch hsn hkb
      right
      exact ⟨st, ch, rfl, hkb, fun s hs => hs, fun h => h,
        fun j0 hj0 _ _ => absurd hj0 (List.not_mem_nil j0)⟩
  | cons j js ih =>
      intro tf i sn st ch hsn hkb
      rcases bad3_getD hsn i with hi1 | hi1 | hi1 | hi1 <;>
        rcases bad3_getD hsn j with hj1 | hj1 | hj1 | hj1 <;>
      first
      | -- skipped pair: equal sentences or no subset relation
        (first
          | rw [inferInner_cons_eq (by rw [hi1, hj1]; decide)]
          | rw [inferInner_cons_noSub (by rw [hi1, hj1]; decide) (by rw [hi1, hj1]; decide)]
         ;
         rcases ih tf i sn st ch hsn hkb with hn | ⟨st', ch', heq, hb, hsub, hmono, hsp⟩
         · left; exact hn
         · right
           refine ⟨st', ch', heq, hb, hsub, hmono, fun j0 hj0 hS1 hS2 => ?_⟩
           rcases List.mem_cons.1 hj0 with rfl | hj0in
           · first
             | exact absurd (hS1.symm.trans hi1) (by decide)
             | exact absurd (hS2.symm.trans hj1) (by decide)
           · exact hsp j0 hj0in hS1 hS2)
      | -- deriving pair: a nontrivial sentence is appended and change is set
        (rw [inferInner_cons_append (by rw [hi1, hj1]; decide) (by rw [hi1, hj1]; decide)
            (by rw [hi1, hj1]; decide) (by rw [hi1, hj1]; decide)]
         ;
         have hkb2 : ∀ s ∈ ({ st with knowledge := st.knowledge ++
             [deriveS (sn.getD i ⟨[], 0⟩) (sn.getD j ⟨[], 0⟩)] } : AIState).knowledge,
             bad3 s := by
           intro s hs
           rcases List.mem_append.1 hs with hs | hs
           · exact hkb s hs
           · rcases List.mem_singleton.1 hs with rfl
             rw [hi1, hj1]
             unfold bad3
             decide
         rcases trivial_update_badkb_cases tf _ sn hkb2 with hnone | hsome
         · rw [hnone]; left; rfl
         · rw [hsome]
           rcases ih tf i sn _ true hsn hkb2 with hn | ⟨st', ch', heq, hb, hsub, hmono, hsp⟩
           · left; exact hn
           · right
             refine ⟨st', ch', heq, hb, fun s hs => hsub s (List.mem_append_left _ hs),
               fun _ => hmono rfl, fun j0 hj0 hS1 hS2 => hmono rfl⟩)

theorem inferOuter_bad (is : List Nat) :
    ∀ (tf L : Nat) (sn : List Sentence) (st : AIState) (ch : Bool),
    (∀ s ∈ sn, bad3 s) → (∀ s ∈ st.knowledge, bad3 s) →
    inferOuter tf L is sn st ch = none ∨
    ∃ st' ch', inferOuter tf L is sn st ch = some (sn, st', ch') ∧
      (∀ s ∈ st'.knowledge, bad3 s) ∧
      (∀ s ∈ st.knowledge, s ∈ st'.knowledge) ∧
      (ch = true → ch' = true) ∧
      (∀ i0 ∈ is, ∀ j0 ∈ List.range L, sn.getD i0 ⟨[], 0⟩ = S1v →
        sn.getD j0 ⟨[], 0⟩ = S2v → ch' = true) := by
  induction is with
  | nil =>
      intro tf L sn st ch hsn hkb
      right
      exact ⟨st, ch, rfl, hkb, fun s hs => hs, fun h => h,
        fun i0 hi0 _ _ _ _ => absurd hi0 (List.not_mem_nil i0)⟩
  | cons i is ih =>
      intro tf L sn st ch hsn hkb
      simp only [inferOuter]
      rcases inferInner_bad (List.range L) tf i sn st ch hsn hkb with
        hn | ⟨st1, ch1, heq1, hb1, hsub1, hmono1, hsp1⟩
      · rw [hn]
        exact Or.inl rfl
      · rw [heq1]
        rcases ih tf L sn st1 ch1 hsn hb1 with
          hn2 | ⟨st', ch', heq2, hb2, hsub2, hmono2, hsp2⟩
        · left; exact hn2
        · right
          refine ⟨st', ch', heq2, hb2, fun s hs => hsub2 s (hsub1 s hs), 
            fun hc => hmono2 (hmono1 hc), fun i0 hi0 j0 hj0 h1 h2 => ?_⟩
          rcases List.mem_cons.1 hi0 with rfl | hi0in
          · exact hmono2 (hsp1 j0 hj0 h1 h2)
          · exact hsp2 i0 hi0in j0 hj0 h1 h2

theorem inference_update_diverges (f : Nat) :
    ∀ (tf : Nat) (st : AIState), BadSt st → inference_update f tf st = none := by
  induction f with
  | zero => intros; rfl
  | succ f ih =>
      intro tf st hbad
      obtain ⟨hkb, h1, h2⟩ := hbad
      simp only [inference_update]
      obtain ⟨i0, hi0lt, hi0⟩ := List.mem_iff_getElem.1 h1
      obtain ⟨j0, hj0lt, hj0⟩ := List.mem_iff_getElem.1 h2
      have hgi : st.knowledge.getD i0 ⟨[], 0⟩ = S1v := by
        rw [List.getD_eq_getElem _ _ hi0lt]; exact hi0
      have hgj : st.knowledge.getD j0 ⟨[], 0⟩ = S2v := by
        rw [List.getD_eq_getElem _ _ hj0lt]; exact hj0
      rcases inferOuter_bad (List.range st.knowledge.length) tf st.knowledge.length
          st.knowledge st false hkb hkb with
        hn | ⟨st', ch', heq, hb, hsub, hmono, hsp⟩
      · rw [hn]
      · rw [heq]
        have hch : ch' = true :=
          hsp i0 (List.mem_range.2 hi0lt) j0 (List.mem_range.2 hj0lt) hgi hgj
        rw [hch]
        exact ih tf st' ⟨hb, hsub _ h1, hsub _ h2⟩

theorem mem_marksMine_mines (cs : List Cell) :
    ∀ (st : AIState) (e : List Sentence) (c : Cell), c ∈ cs →
    c ∈ (marksMine cs st e).1.mines := by
  induction cs with
  | nil => intro st e c hc; exact absurd hc (List.not_mem_nil c)
  | cons a cs ih =>
      intro st e c hc
      rcases List.mem_cons.1 hc with rfl | hc
      · exact (setsMono_marksMine cs (AI.mark_mine c st) _).2.2 (mem_insertC_self c st.mines)
      · exact ih _ _ c hc

theorem inferInner_cons_mine {tf i j : Nat} {js : List Nat} {sn : List Sentence}
    {st : AIState} {ch : Bool}
    (h1 : sentEq (sn.getD i ⟨[], 0⟩) (sn.getD j ⟨[], 0⟩) = false)
    (h2 : (sn.getD i ⟨[], 0⟩).cells.all
      (fun c => decide (c ∈ (sn.getD j ⟨[], 0⟩).cells)) = true)
    (h3 : ¬((deriveS (sn.getD i ⟨[], 0⟩) (sn.getD j ⟨[], 0⟩)).count = 0))
    (h4 : (deriveS (sn.getD i ⟨[], 0⟩) (sn.getD j ⟨[], 0⟩)).count =
      ((deriveS (sn.getD i ⟨[], 0⟩) (sn.getD j ⟨[], 0⟩)).cells.length : Int)) :
    inferInner tf i (j :: js) sn st ch =
      match trivial_update tf
          (marksMine (deriveS (sn.getD i ⟨[], 0⟩) (sn.getD j ⟨[], 0⟩)).cells st sn).1
          (marksMine (deriveS (sn.getD i ⟨[], 0⟩) (sn.getD j ⟨[], 0⟩)).cells st sn).2 with
      | none => none
      | some (st', sn') => inferInner tf i js sn' st' true := by
  simp only [inferInner, h1, h2, if_neg h3, if_pos h4]
  rfl

/-- C1: the claim states that the subset-inference fixpoint of
inference_update halts on every reachable knowledge-base state and hence that
every add_knowledge call returns after finitely many steps.  The code refutes
this: after the legitimate first observation at (1,1) with count 2 on a fresh
4 by 4 engine (first conjunct, reaching state st1c), the equally legitimate
second observation at (0,0) with count 1 leaves the two sentences S1v and S2v
with S1v.cells a proper subset of S2v.cells and a nontrivial difference, so
every pass of inference_update re-derives duplicate sentences, keeps the
change flag set, and never reaches a fixpoint: for every fuel bound the call
returns none, that is, the Python loop runs forever. -/
theorem C1_add_knowledge_diverges :
    add_knowledge 2 2 (AI.init 4 4) (1, 1) 2 = some st1c ∧
    ∀ tf fi : Nat, add_knowledge tf fi st1c (0, 0) 1 = none := by
  constructor
  · decide
  · intro tf fi
    show (match trivial_update tf stBad [] with
          | none => none
          | some (st4, _) => inference_update fi tf st4) = none
    cases tf with
    | zero => rfl
    | succ tf =>
        rw [trivial_update_badkb tf stBad [] (by unfold bad3; decide)]
        exact inference_update_diverges fi (tf + 1) stBad (by unfold BadSt bad3; decide)

/-- C2: after any sequence of the engine operations starting from a fresh
engine, in particular after mark_mine and mark_safe calls and after every
successful add_knowledge call, no sentence in the knowledge base holds a cell
that is in the mines set or in the safes set. -/
theorem C2_no_classified_cell_in_sentences :
    ∀ st : AIState, Reachable st →
    ∀ s ∈ st.knowledge, ∀ c ∈ s.cells, c ∉ st.mines ∧ c ∉ st.safes := by
  intro st h s hs c hc
  obtain ⟨-, hok⟩ := (invP_reachable st h).1 s hs
  obtain ⟨h1, h2⟩ := hok c hc
  exact ⟨h2, h1⟩

theorem C2_witness : (0, 1) ∉ stA4.mines ∧ (0, 1) ∉ stA4.safes :=
  C2_no_classified_cell_in_sentences stA4
    (Reachable.addK 3 3 (AI.init 4 4) (0, 0) 1 stA4 (Reachable.init 4 4) (by decide))
    ⟨[(0, 1), (1, 0), (1, 1)], 1⟩ (by decide) (0, 1) (by decide)

/-- C3 counterexample: the mark operations do not enforce disjointness of the
mines and safes sets.  Calling mark_mine and then mark_safe on the same cell
of a fresh engine puts the cell in both sets, refuting the claim that mines
and safes are disjoint after every sequence of engine operations. -/
theorem C3_counterexample :
    (0, 0) ∈ (AI.mark_safe (0, 0) (AI.mark_mine (0, 0) (AI.init 4 4))).mines ∧
    (0, 0) ∈ (AI.mark_safe (0, 0) (AI.mark_mine (0, 0) (AI.init 4 4))).safes := by
  decide

/-- C3 amended: mark_mine preserves disjointness of mines and safes whenever
the marked cell is not already in safes, and mark_safe preserves it whenever
the marked cell is not already in mines; disjointness can only break when a
cell is classified both ways. -/
theorem C3_marks_preserve_disjointness :
    ∀ (st : AIState) (c : Cell), (∀ x ∈ st.mines, x ∉ st.safes) →
    ((c ∉ st.safes →
        ∀ x ∈ (AI.mark_mine c st).mines, x ∉ (AI.mark_mine c st).safes) ∧
     (c ∉ st.mines →
        ∀ x ∈ (AI.mark_safe c st).safes, x ∉ (AI.mark_safe c st).mines)) := by
  intro st c hdisj
  constructor
  · intro hc x hx
    rcases mem_insertC.1 hx with rfl | hx
    · exact hc
    · exact hdisj x hx
  · intro hc x hx
    rcases mem_insertC.1 hx with rfl | hx
    · exact hc
    · exact fun hm => hdisj x hm hx

theorem C3_witness : (0, 0) ∉ (AI.mark_mine (0, 0) (AI.init 4 4)).safes :=
  (C3_marks_preserve_disjointness (AI.init 4 4) (0, 0)
    (by intro x hx; exact absurd hx (List.not_mem_nil x))).1 (by decide) (0, 0) (by decide)

/-- C4 counterexample: add_knowledge performs no moves_made guard.  Invoked a
second time with the already played cell (0,0), it neither fails nor leaves
the state unchanged: it re-ingests the observation and appends a duplicate of
the neighbor sentence, so the state after the repeated call differs from the
state before it. -/
theorem C4_counterexample :
    add_knowledge 3 3 (AI.init 4 4) (0, 0) 1 = some stA4 ∧
    (0, 0) ∈ stA4.moves_made ∧
    add_knowledge 3 3 stA4 (0, 0) 1 = some stB4 ∧
    stB4 ≠ stA4 ∧ stB4.knowledge.length = 2 := by
  decide

/-- C4 amended: add_knowledge does not guard against a replayed cell; it
re-ingests the observation, which can append a duplicate sentence, but the
moves_made set is unchanged when the cell was already recorded there. -/
theorem C4_replay_keeps_moves_made :
    ∀ (tf fi : Nat) (st : AIState) (c : Cell) (n : Int) (st' : AIState),
    c ∈ st.moves_made → add_knowledge tf fi st c n = some st' →
    st'.moves_made = st.moves_made := by
  intro tf fi st c n st' hc heq
  obtain ⟨hm, -, -⟩ := add_knowledge_sets heq
  rw [hm, insertC_of_mem hc]

theorem C4_witness : stB4.moves_made = stA4.moves_made :=
  C4_replay_keeps_moves_made 3 3 stA4 (0, 0) 1 stB4 (by decide) (by decide)

/-- C5: when the inner pair scan of inference_update meets two sentences that
are not equal and whose first cell set is a subset of the second, it derives
exactly deriveS, the sentence with the cell-set difference and the count
difference; in the classification case where the derived count equals the
number of derived cells every derived cell is marked as a mine (first
conjunct, stated for the scan step in full generality).  In particular, on
the knowledge base holding exactly S1 with cells A B and count 1 and S2 with
cells A B C and count 2, running inference_update derives the singleton C
with count 1 and marks C as a mine (second conjunct). -/
theorem C5_subset_inference_derives_and_classifies :
    (∀ (tf i j : Nat) (js : List Nat) (sn : List Sentence) (st : AIState) (ch : Bool),
      sentEq (sn.getD i ⟨[], 0⟩) (sn.getD j ⟨[], 0⟩) = false →
      (sn.getD i ⟨[], 0⟩).cells.all
        (fun c => decide (c ∈ (sn.getD j ⟨[], 0⟩).cells)) = true →
      ¬((deriveS (sn.getD i ⟨[], 0⟩) (sn.getD j ⟨[], 0⟩)).count = 0) →
      (deriveS (sn.getD i ⟨[], 0⟩) (sn.getD j ⟨[], 0⟩)).count =
        ((deriveS (sn.getD i ⟨[], 0⟩) (sn.getD j ⟨[], 0⟩)).cells.length : Int) →
      (inferInner tf i (j :: js) sn st ch =
        match trivial_update tf
            (marksMine (deriveS (sn.getD i ⟨[], 0⟩) (sn.getD j ⟨[], 0⟩)).cells st sn).1
            (marksMine (deriveS (sn.getD i ⟨[], 0⟩) (sn.getD j ⟨[], 0⟩)).cells st sn).2 with
        | none => none
        | some (st', sn') => inferInner tf i js sn' st' true) ∧
      ∀ c ∈ (deriveS (sn.getD i ⟨[], 0⟩) (sn.getD j ⟨[], 0⟩)).cells,
        c ∈ (marksMine (deriveS (sn.getD i ⟨[], 0⟩) (sn.getD j ⟨[], 0⟩)).cells st sn).1.mines) ∧
    deriveS s1ex s2ex = ⟨[(0, 2)], 1⟩ ∧
    inference_update 3 3 stEx =
      some ⟨4, 4, [], [], [(0, 2)], [⟨[(0, 0), (0, 1)], 1⟩, ⟨[(0, 0), (0, 1)], 1⟩]⟩ := by
  refine ⟨?_, by decide, by decide⟩
  intro tf i j js sn st ch h1 h2 h3 h4
  exact ⟨inferInner_cons_mine h1 h2 h3 h4,
    fun c hc => mem_marksMine_mines _ st sn c hc⟩

theorem C5_witness :
    (0, 2) ∈ (marksMine (deriveS ([s1ex, s2ex].getD 0 ⟨[], 0⟩)
      ([s1ex, s2ex].getD 1 ⟨[], 0⟩)).cells stEx [s1ex, s2ex]).1.mines :=
  ((C5_subset_inference_derives_and_classifies.1 1 0 1 [] [s1ex, s2ex] stEx false
    (by decide) (by decide) (by decide) (by decide)).2 (0, 2) (by decide))

/-- C6: running trivial_update on a knowledge base holding the single sentence
with cells A B and count 2 marks both A and B as mines and removes the
sentence, and running it on a knowledge base holding the single sentence with
cells A B C and count 0 marks A, B and C safe and removes the sentence. -/
theorem C6_trivial_resolution_examples :
    trivial_update 3 stT1 [] = some (⟨4, 4, [], [], [(0, 0), (0, 1)], []⟩, []) ∧
    trivial_update 3 stT2 [] = some (⟨4, 4, [], [(0, 0), (0, 1), (0, 2)], [], []⟩, []) := by
  decide

/-- C7: the engine mark operations are idempotent: on any state whose sentence
cell lists are duplicate-free, which holds for every state the engine can
build, marking the same cell safe twice in a row, or mine twice in a row,
yields exactly the state obtained by marking it once, including every
sentence of the knowledge base. -/
theorem C7_marks_idempotent :
    ∀ (st : AIState) (c : Cell), (∀ s ∈ st.knowledge, s.cells.Nodup) →
    AI.mark_safe c (AI.mark_safe c st) = AI.mark_safe c st ∧
    AI.mark_mine c (AI.mark_mine c st) = AI.mark_mine c st := by
  intro st c hnd
  cases st with
  | mk h w mm sa mi k =>
      have hks : (k.map (Sentence.mark_safe c)).map (Sentence.mark_safe c)
          = k.map (Sentence.mark_safe c) := by
        rw [List.map_map]
        apply List.map_congr_left
        intro s hs
        simpa using mark_safe_idem (hnd s hs)
      have hkm : (k.map (Sentence.mark_mine c)).map (Sentence.mark_mine c)
          = k.map (Sentence.mark_mine c) := by
        rw [List.map_map]
        apply List.map_congr_left
        intro s hs
        simpa using mark_mine_idem (hnd s hs)
      constructor
      · show (⟨h, w, mm, insertC c (insertC c sa), mi,
            (k.map (Sentence.mark_safe c)).map (Sentence.mark_safe c)⟩ : AIState)
          = ⟨h, w, mm, insertC c sa, mi, k.map (Sentence.mark_safe c)⟩
        rw [insertC_idem c sa, hks]
      · show (⟨h, w, mm, sa, insertC c (insertC c mi),
            (k.map (Sentence.mark_mine c)).map (Sentence.mark_mine c)⟩ : AIState)
          = ⟨h, w, mm, sa, insertC c mi, k.map (Sentence.mark_mine c)⟩
        rw [insertC_idem c mi, hkm]

theorem C7_witness :
    AI.mark_safe (0, 0) (AI.mark_safe (0, 0) stA4) = AI.mark_safe (0, 0) stA4 ∧
    AI.mark_mine (0, 0) (AI.mark_mine (0, 0) stA4) = AI.mark_mine (0, 0) stA4 :=
  C7_marks_idempotent stA4 (0, 0) (by decide)

/-- C8: make_safe_move leaves the engine state unchanged, returns none exactly
when no safe unplayed cell exists, and any returned cell is a known safe cell
that has not been played. -/
theorem C8_make_safe_move_spec :
    ∀ st : AIState,
    (make_safe_move st).2 = st ∧
    ((st.safes.filter (fun c => decide (c ∉ st.moves_made))).length = 0 →
      (make_safe_move st).1 = none) ∧
    (∀ c : Cell, (make_safe_move st).1 = some c → c ∈ st.safes ∧ c ∉ st.moves_made) ∧
    ((st.safes.filter (fun c => decide (c ∉ st.moves_made))).length ≠ 0 →
      ∃ c, (make_safe_move st).1 = some c) := by
  intro st
  refine ⟨?_, ?_, ?_, ?_⟩
  · simp only [make_safe_move]
    split <;> rfl
  · intro h
    simp only [make_safe_move, if_pos h]
  · intro c hc
    simp only [make_safe_move] at hc
    split at hc
    · exact absurd hc (by simp)
    · have hmem := List.mem_of_mem_head? hc
      obtain ⟨h1, h2⟩ := List.mem_filter.1 hmem
      exact ⟨h1, by simpa using h2⟩
  · intro h
    simp only [make_safe_move, if_neg h]
    cases hfe : st.safes.filter (fun c => decide (c ∉ st.moves_made)) with
    | nil => exact absurd (by rw [hfe]; rfl) h
    | cons a l => exact ⟨a, rfl⟩

theorem C8_witness :
    (make_safe_move stA4).2 = stA4 ∧ (make_safe_move stA4).1 = none :=
  ⟨(C8_make_safe_move_spec stA4).1, (C8_make_safe_move_spec stA4).2.1 (by decide)⟩

/-- C9: a sentence with a negative count is never treated as all-mine
resolved: known_mines returns the empty set for it, and the trivial
resolution pass skips it entirely, marking nothing. -/
theorem C9_negative_count_never_all_mine :
    ∀ s : Sentence, s.count < 0 →
    s.known_mines = [] ∧
    (∀ (k : Nat) (rest : List Sentence) (st : AIState) (extra : List Sentence) (ch : Bool),
      s.cells ≠ [] →
      trivialPassAux (k + 1) (s :: rest) st extra ch = trivialPassAux k rest st extra ch) := by
  intro s hneg
  have hnn : (0 : Int) ≤ (s.cells.length : Int) := Int.natCast_nonneg s.cells.length
  have h2 : ¬(s.count = (s.cells.length : Int)) := by omega
  have h3 : ¬(s.count = 0) := by omega
  constructor
  · simp only [Sentence.known_mines]
    rw [if_neg]
    omega
  · intro k rest st extra ch hne
    simp only [trivialPassAux, if_neg hne, if_neg h2, if_neg h3]

theorem C9_witness :
    (⟨[(0, 0)], -1⟩ : Sentence).known_mines = [] ∧
    trivialPassAux 1 [⟨[(0, 0)], -1⟩] stA4 [] false = trivialPassAux 0 [] stA4 [] false :=
  ⟨(C9_negative_count_never_all_mine ⟨[(0, 0)], -1⟩ (by decide)).1,
   (C9_negative_count_never_all_mine ⟨[(0, 0)], -1⟩ (by decide)).2 0 [] stA4 [] false
     (by decide)⟩

/-- C10: every public engine operation only grows the three classification
sets: mark_mine and mark_safe extend mines and safes, a successful
add_knowledge extends moves_made, safes and mines, and the two move queries
leave the whole state unchanged. -/
theorem C10_operations_monotone :
    ∀ (st : AIState) (c : Cell) (tf fi : Nat) (cl : Cell) (n : Int) (st' : AIState),
    (st.moves_made ⊆ (AI.mark_mine c st).moves_made ∧
      st.safes ⊆ (AI.mark_mine c st).safes ∧ st.mines ⊆ (AI.mark_mine c st).mines) ∧
    (st.moves_made ⊆ (AI.mark_safe c st).moves_made ∧
      st.safes ⊆ (AI.mark_safe c st).safes ∧ st.mines ⊆ (AI.mark_safe c st).mines) ∧
    (add_knowledge tf fi st cl n = some st' →
      st.moves_made ⊆ st'.moves_made ∧ st.safes ⊆ st'.safes ∧ st.mines ⊆ st'.mines) ∧
    (make_safe_move st).2 = st ∧
    (make_random_move st).2 = st := by
  intro st c tf fi cl n st'
  refine ⟨⟨List.Subset.refl _, List.Subset.refl _, subset_insertC c st.mines⟩,
    ⟨List.Subset.refl _, subset_insertC c st.safes, List.Subset.refl _⟩, ?_, ?_, ?_⟩
  · intro heq
    obtain ⟨hm, hs, hmi⟩ := add_knowledge_sets heq
    refine ⟨?_, hs, hmi⟩
    rw [hm]
    exact subset_insertC cl st.moves_made
  · simp only [make_safe_move]
    split <;> rfl
  · simp only [make_random_move]
    split <;> rfl

theorem C10_witness :
    (AI.init 4 4).moves_made ⊆ stA4.moves_made ∧
    (AI.init 4 4).safes ⊆ stA4.safes ∧ (AI.init 4 4).mines ⊆ stA4.mines :=
  (C10_operations_monotone (AI.init 4 4) (0, 0) 3 3 (0, 0) 1 stA4).2.2.1 (by decide)
